import Mathlib

/-
Shallow embedding of the PID tuning / performance-analysis engine
(src/tuning_rules.py, src/performance_analysis.py, src/transfer_functions.py).

Python floats are modelled as exact rationals (ℚ).  The one tuning rule whose
formulas involve π (Ziegler-Nichols closed loop) produces real-valued gains.
Calls into the external `control` / `numpy` libraries (ct.margin, ct.poles,
ct.step_response, ct.step_info) are not code of this repository; they are
modelled as oracle parameters of the embedded functions, and the values the
repository reads from them (possibly-infinite floats, complex pole lists) are
modelled by explicit inductive types.
-/

/-- The gains dictionary `{'Kp': ..., 'Ki': ..., 'Kd': ...}` returned by every
tuning rule (and consumed by `get_pid_controller`). -/
structure PIDGains (α : Type) where
  Kp : α
  Ki : α
  Kd : α

/-- `ziegler_nichols_open_loop` from src/tuning_rules.py (lines 11-39).
A raised `ValueError` is modelled as `Except.error` carrying the message. -/
def ziegler_nichols_open_loop (k_p tau theta : ℚ) : Except String (PIDGains ℚ) :=
  if k_p = 0 then
    Except.error "Process gain (k_p) cannot be zero."
  else if theta ≤ 0 then
    Except.error "Ziegler-Nichols open-loop method is not applicable for systems with no dead time (theta <= 0)."
  else
    let kc := (1.2 * tau) / (k_p * theta)
    let ti := 2.0 * theta
    let td := 0.5 * theta
    Except.ok ⟨kc, kc / ti, kc * td⟩

/-- `cohen_coon` from src/tuning_rules.py (lines 42-74). -/
def cohen_coon (k_p tau theta : ℚ) : Except String (PIDGains ℚ) :=
  if k_p = 0 then
    Except.error "Process gain (k_p) cannot be zero."
  else if theta ≤ 0 then
    Except.error "Cohen-Coon method is not applicable for systems with no dead time (theta <= 0)."
  else
    let L := theta
    let T := tau
    let K := k_p
    let kc := (T / (K * L)) * (4 / 3 + (L / (4 * T)))
    let ti := L * ((32 * T + 6 * L) / (13 * T + 8 * L))
    let td := L * ((4 * T) / (11 * T + 2 * L))
    Except.ok ⟨kc, kc / ti, kc * td⟩

/-- `imc` from src/tuning_rules.py (lines 112-145).  Note: the source checks
only `k_p == 0` and `tau_c <= 0`; there is no dead-time precondition. -/
def imc (k_p tau theta tau_c : ℚ) : Except String (PIDGains ℚ) :=
  if k_p = 0 then
    Except.error "Process gain (k_p) cannot be zero."
  else if tau_c ≤ 0 then
    Except.error "Closed-loop time constant (tau_c) must be positive."
  else
    let K := k_p
    let T := tau
    let L := theta
    let kc := (1 / K) * (T + 0.5 * L) / (tau_c + 0.5 * L)
    let ti := T + 0.5 * L
    let td := if (2 * T + L) ≠ 0 then (T * L) / (2 * T + L) else 0
    Except.ok ⟨kc, if ti ≠ 0 then kc / ti else 0, kc * td⟩

/-- numpy.polyadd on coefficient lists (highest power first): the shorter list
is padded with leading zeros, then the lists are added position-wise. -/
def polyadd (a b : List ℚ) : List ℚ :=
  let n := max a.length b.length
  List.zipWith (· + ·) (List.replicate (n - a.length) 0 ++ a)
    (List.replicate (n - b.length) 0 ++ b)

/-- numpy.polymul on coefficient lists: polynomial product (convolution). -/
def polymul : List ℚ → List ℚ → List ℚ
  | [], _ => []
  | a :: as, b => polyadd (b.map (a * ·) ++ List.replicate as.length 0) (polymul as b)

/-- A SISO `control.TransferFunction`: numerator and denominator coefficient
lists, highest power of s first. -/
structure TransFn where
  num : List ℚ
  den : List ℚ

/-- Series composition `tf1 * tf2` as performed by python-control. -/
def tfmul (g h : TransFn) : TransFn :=
  ⟨polymul g.num h.num, polymul g.den h.den⟩

/-- Sum `tf1 + tf2` as performed by python-control:
`num = num1*den2 + num2*den1`, `den = den1*den2`. -/
def tfadd (g h : TransFn) : TransFn :=
  ⟨polyadd (polymul g.num h.den) (polymul h.num g.den), polymul g.den h.den⟩

/-- `ct.feedback(G, 1)` (unity negative feedback):
`num = G.num * 1`, `den = G.den * 1 + G.num * 1`. -/
def tffeedback1 (g : TransFn) : TransFn :=
  ⟨polymul g.num [1], polyadd (polymul g.den [1]) (polymul g.num [1])⟩

/-- `get_pid_controller` from src/performance_analysis.py (lines 10-27).
When `Ki = 0` (resp. `Kd = 0`) the source uses the Python scalar `0`, which
the library coerces to the transfer function `0/1` on addition; the final
`isinstance` fallback is unreachable because adding transfer functions always
yields a `TransferFunction`. -/
def get_pid_controller (pid_params : PIDGains ℚ) : TransFn :=
  let p : TransFn := ⟨[pid_params.Kp], [1]⟩
  let i : TransFn := if pid_params.Ki ≠ 0 then ⟨[pid_params.Ki], [1, 0]⟩ else ⟨[0], [1]⟩
  let d : TransFn := if pid_params.Kd ≠ 0 then ⟨[pid_params.Kd, 0], [1]⟩ else ⟨[0], [1]⟩
  tfadd (tfadd p i) d

/-- A float returned by `ct.margin` that the source tests with `np.isinf`. -/
inductive MarginVal where
  | finite (x : ℚ)
  | infinite
deriving DecidableEq

/-- The quadruple `(gm, pm, wg, wp)` returned by `ct.margin` (external
library): gain margin, phase margin, phase-crossover frequency and
gain-crossover frequency. -/
structure MarginResult where
  gm : MarginVal
  pm : MarginVal
  wg : ℚ
  wp : ℚ

/-- `ziegler_nichols_closed_loop` from src/tuning_rules.py (lines 77-109).
`margin` is the oracle for the external `ct.margin`; the source reads only
the `gm` and `wg` components.  The returned gains are real because the
ultimate period is `Tu = 2π/wg`. -/
noncomputable def ziegler_nichols_closed_loop
    (margin : TransFn → MarginResult) (tf_model : TransFn) :
    Except String (PIDGains ℝ) :=
  match (margin tf_model).gm with
  | MarginVal.infinite =>
      Except.error "System does not have a finite ultimate gain (Ku). The Ziegler-Nichols closed-loop method is not applicable."
  | MarginVal.finite gm =>
      if gm ≤ 0 then
        Except.error "System does not have a finite ultimate gain (Ku). The Ziegler-Nichols closed-loop method is not applicable."
      else if (margin tf_model).wg ≤ 0 then
        Except.error "System does not have a finite ultimate period (Tu). The Ziegler-Nichols closed-loop method is not applicable."
      else
        let ku : ℝ := (gm : ℝ)
        let tu : ℝ := 2 * Real.pi / (((margin tf_model).wg : ℚ) : ℝ)
        let kc := 0.6 * ku
        let ti := tu / 2.0
        let td := tu / 8.0
        Except.ok ⟨kc, kc / ti, kc * td⟩

/-- Frequency response `G(jω)` of the plant `1/(s+1)` (`ct.tf([1], [1, 1])`
of Scenario 6): its phase stays strictly above -180°, which is why
`ct.margin` reports an infinite gain margin for it. -/
noncomputable def firstOrderPlantResponse (ω : ℝ) : ℂ :=
  1 / (Complex.I * ω + 1)

/-- One complex pole as returned by `ct.poles` (a numpy complex float). -/
structure CPole where
  re : ℚ
  im : ℚ

/-- The step characteristics dictionary produced by `ct.step_info`;
`np.nan` ("not applicable") is modelled as `none`. -/
structure StepInfo where
  RiseTime : Option ℚ
  SettlingTime : Option ℚ
  Overshoot : Option ℚ
  Peak : Option ℚ
  PeakTime : Option ℚ

/-- The dictionary returned by `analyze_step_response`. -/
structure StepResult where
  time : List ℚ
  output : List ℚ
  info : StepInfo

/-- Insert into an ascending list; auxiliary for `pysorted`. -/
def insertAsc (a : ℚ) : List ℚ → List ℚ
  | [] => [a]
  | b :: bs => if a ≤ b then a :: b :: bs else b :: insertAsc a bs

/-- Python's builtin `sorted` on rationals (ascending); implemented as
insertion sort, which produces the same (unique) ascending rearrangement. -/
def pysorted : List ℚ → List ℚ
  | [] => []
  | a :: as => insertAsc a (pysorted as)

/-- Simulation-horizon selection of `analyze_step_response`
(src/performance_analysis.py lines 53-66).  The argument is the result of
`ct.poles` on the closed loop; `none` models the call raising an exception
(the `except` branch). -/
def select_T_final (poles : Option (List CPole)) : ℚ :=
  match poles with
  | none => 50
  | some ps =>
    if ps.length = 0 then 50
    else
      match pysorted ((ps.filter (fun p => p.re < -(1 / 1000000))).map (fun p => |p.re|)) with
      | [] => 50
      | r :: _ => 10 / r

/-- `np.linspace a b n` (with endpoint): `n` samples `a + (b-a)*i/(n-1)`. -/
def linspace (a b : ℚ) (n : ℕ) : List ℚ :=
  (List.range n).map (fun i : ℕ => a + (b - a) * (i : ℚ) / ((n : ℚ) - 1))

/-- `analyze_step_response` from src/performance_analysis.py (lines 29-74).
`polesOf`, `step_response` and `step_info` are oracles for the external
`ct.poles` (with `none` modelling a raised exception), `ct.step_response`
(which echoes the supplied time vector back) and `ct.step_info`. -/
def analyze_step_response (sys_tf : TransFn) (pid_params : PIDGains ℚ)
    (polesOf : TransFn → Option (List CPole))
    (step_response : TransFn → List ℚ → List ℚ)
    (step_info : TransFn → List ℚ → StepInfo) : StepResult :=
  let controller_tf := get_pid_controller pid_params
  if ∀ c ∈ controller_tf.num, c = 0 then
    ⟨[0, 1], [0, 0], ⟨none, none, none, none, none⟩⟩
  else
    let closed_loop_tf := tffeedback1 (tfmul controller_tf sys_tf)
    let T_final := select_T_final (polesOf closed_loop_tf)
    let time_vec := linspace 0 T_final 1500
    ⟨time_vec, step_response closed_loop_tf time_vec, step_info closed_loop_tf time_vec⟩

/-- `np.trapezoid y x`: trapezoidal-rule integral of the samples `y` over the
grid `x`. -/
def trapezoid : List ℚ → List ℚ → ℚ
  | y0 :: y1 :: ys, x0 :: x1 :: xs =>
      (x1 - x0) * (y0 + y1) / 2 + trapezoid (y1 :: ys) (x1 :: xs)
  | _, _ => 0

/-- The indices dictionary returned by `calculate_performance_indices`;
`np.nan` ("not applicable") is modelled as `none`. -/
structure PerfIndices where
  IAE : Option ℚ
  ISE : Option ℚ
  ITAE : Option ℚ
  ITSE : Option ℚ

/-- `calculate_performance_indices` from src/performance_analysis.py
(lines 77-106). -/
def calculate_performance_indices (time output : List ℚ) (setpoint : ℚ) :
    PerfIndices :=
  if time.length ≠ output.length ∨ time.length < 2 then
    ⟨none, none, none, none⟩
  else
    let error := output.map (fun y => setpoint - y)
    ⟨some (trapezoid (error.map (fun v => |v|)) time),
     some (trapezoid (error.map (fun v => v ^ 2)) time),
     some (trapezoid (List.zipWith (· * ·) time (error.map (fun v => |v|))) time),
     some (trapezoid (List.zipWith (· * ·) time (error.map (fun v => v ^ 2))) time)⟩

/-- A margin entry of the dictionary returned by `analyze_frequency_domain`:
either the numeric margin or the string sentinel `'stable'`. -/
inductive MarginOut where
  | val (x : ℚ)
  | stable
deriving DecidableEq

/-- The dictionary returned by `analyze_frequency_domain`. -/
structure FreqMargins where
  GainMargin : MarginOut
  PhaseMargin : MarginOut

/-- `analyze_frequency_domain` from src/performance_analysis.py
(lines 109-132).  `margin` is the oracle for the external `ct.margin`; the
source reads only the `gm` and `pm` components of its result. -/
def analyze_frequency_domain (sys_tf : TransFn) (pid_params : PIDGains ℚ)
    (margin : TransFn → MarginResult) : FreqMargins :=
  let controller_tf := get_pid_controller pid_params
  let open_loop_tf := tfmul controller_tf sys_tf
  let gm := (margin open_loop_tf).gm
  let pm := (margin open_loop_tf).pm
  ⟨match gm with
    | MarginVal.finite x => MarginOut.val x
    | MarginVal.infinite => MarginOut.stable,
   match pm with
    | MarginVal.finite x => MarginOut.val x
    | MarginVal.infinite => MarginOut.stable⟩

theorem length_insertAsc (a : ℚ) (l : List ℚ) :
    (insertAsc a l).length = l.length + 1 := by
  induction l with
  | nil => rfl
  | cons b bs ih =>
    rw [insertAsc]
    by_cases h : a ≤ b
    · rw [if_pos h]
      rfl
    · rw [if_neg h]
      simp [ih]

theorem length_pysorted (l : List ℚ) : (pysorted l).length = l.length := by
  induction l with
  | nil => rfl
  | cons a as ih => rw [pysorted, length_insertAsc, ih, List.length_cons]

theorem pysorted_head_min (l : List ℚ) (r : ℚ) (t : List ℚ)
    (h : pysorted l = r :: t) : r ∈ l ∧ ∀ x ∈ l, r ≤ x := by
  induction l generalizing r t with
  | nil => simp [pysorted] at h
  | cons a as ih =>
    rw [pysorted] at h
    cases hs : pysorted as with
    | nil =>
      have has : as = [] := by
        have hl := length_pysorted as
        rw [hs] at hl
        simpa using hl.symm
      subst has
      rw [hs, insertAsc] at h
      injection h with h1 h2
      subst h1
      refine ⟨List.mem_cons_self a [], ?_⟩
      intro x hx
      rw [List.mem_singleton.mp hx]
    | cons b bs =>
      obtain ⟨hbmem, hbmin⟩ := ih b bs hs
      rw [hs, insertAsc] at h
      by_cases hab : a ≤ b
      · rw [if_pos hab] at h
        injection h with h1 h2
        subst h1
        refine ⟨List.mem_cons_self a as, ?_⟩
        intro x hx
        rcases List.mem_cons.mp hx with rfl | hx
        · exact le_refl x
        · exact le_trans hab (hbmin x hx)
      · rw [if_neg hab] at h
        injection h with h1 h2
        subst h1
        refine ⟨List.mem_cons_of_mem a hbmem, ?_⟩
        intro x hx
        rcases List.mem_cons.mp hx with rfl | hx
        · exact le_of_lt (lt_of_not_le hab)
        · exact hbmin x hx

theorem getD_map_of_lt (f : ℚ → ℚ) (l : List ℚ) (i : ℕ) (hi : i < l.length) :
    (l.map f).getD i 0 = f (l.getD i 0) := by
  rw [List.getD_eq_getElem _ _ (by simpa using hi), List.getElem_map,
    List.getD_eq_getElem _ _ hi]

theorem getD_zipWith_of_lt (f : ℚ → ℚ → ℚ) (a b : List ℚ) (i : ℕ)
    (ha : i < a.length) (hb : i < b.length) :
    (List.zipWith f a b).getD i 0 = f (a.getD i 0) (b.getD i 0) := by
  rw [List.getD_eq_getElem _ _ (by simp [List.length_zipWith]; omega),
    List.getElem_zipWith, List.getD_eq_getElem _ _ ha, List.getD_eq_getElem _ _ hb]

theorem trapezoid_eq_sum (y x : List ℚ) (h : y.length = x.length) :
    trapezoid y x = ∑ i ∈ Finset.range (x.length - 1),
      (x.getD (i + 1) 0 - x.getD i 0) * (y.getD i 0 + y.getD (i + 1) 0) / 2 := by
  induction y generalizing x with
  | nil =>
    have hx : x = [] := by
      cases x with
      | nil => rfl
      | cons _ _ => simp at h
    subst hx
    simp [show trapezoid [] [] = 0 from rfl]
  | cons y0 ytail ih =>
    cases x with
    | nil => simp at h
    | cons x0 xtail =>
      cases ytail with
      | nil =>
        have hx : xtail = [] := by
          cases xtail with
          | nil => rfl
          | cons _ _ => simp at h
        subst hx
        simp [show trapezoid [y0] [x0] = 0 from rfl]
      | cons y1 ys =>
        cases xtail with
        | nil => simp at h
        | cons x1 xs =>
          have hlen : (y1 :: ys).length = (x1 :: xs).length := by
            simpa using h
          have hx : (x0 :: x1 :: xs).length - 1 = xs.length + 1 := by
            simp
          rw [show trapezoid (y0 :: y1 :: ys) (x0 :: x1 :: xs) =
              (x1 - x0) * (y0 + y1) / 2 + trapezoid (y1 :: ys) (x1 :: xs) from rfl,
            ih (x1 :: xs) hlen, hx, Finset.sum_range_succ']
          have hx2 : (x1 :: xs).length - 1 = xs.length := by simp
          rw [hx2]
          simp only [List.getD_cons_succ, List.getD_cons_zero]
          ring

/-- C2: for every Kp ≠ 0, τ > 0 and θ > 0, `ziegler_nichols_open_loop` returns
exactly Kp = Kc, Ki = Kc/(2θ), Kd = Kc·0.5θ with Kc = 1.2τ/(Kp·θ); in
particular for (Kp = 1.5, τ = 4.0, θ = 1.0) it returns
Kp = 3.2, Ki = 1.6, Kd = 1.6. -/
theorem zn_open_loop_formula :
    (∀ k_p tau theta : ℚ, k_p ≠ 0 → 0 < tau → 0 < theta →
      ziegler_nichols_open_loop k_p tau theta =
        Except.ok ⟨1.2 * tau / (k_p * theta),
          1.2 * tau / (k_p * theta) / (2 * theta),
          1.2 * tau / (k_p * theta) * (0.5 * theta)⟩) ∧
    ziegler_nichols_open_loop 1.5 4 1 = Except.ok ⟨3.2, 1.6, 1.6⟩ := by
  constructor
  · intro k_p tau theta hk ht hth
    rw [ziegler_nichols_open_loop, if_neg hk, if_neg (not_le.mpr hth)]
    norm_num
  · norm_num [ziegler_nichols_open_loop]

/-- Witness for `zn_open_loop_formula` at (Kp, τ, θ) = (1.5, 4, 1). -/
theorem zn_open_loop_formula_witness :
    ziegler_nichols_open_loop 1.5 4 1 =
      Except.ok ⟨1.2 * 4 / (1.5 * 1), 1.2 * 4 / (1.5 * 1) / (2 * 1),
        1.2 * 4 / (1.5 * 1) * (0.5 * 1)⟩ :=
  zn_open_loop_formula.1 1.5 4 1 (by norm_num) (by norm_num) (by norm_num)

/-- C3: for every Kp ≠ 0, τ > 0 and θ > 0, `cohen_coon` returns exactly
Kp = Kc, Ki = Kc/Ti, Kd = Kc·Td with Kc = (τ/(Kp·θ))·(4/3 + θ/(4τ)),
Ti = θ·(32τ+6θ)/(13τ+8θ), Td = θ·4τ/(11τ+2θ); in particular for
(Kp = 1.5, τ = 4.0, θ = 1.0) it returns exactly (67/18, 5/3, 268/207),
i.e. approximately (3.722, 1.667, 1.295). -/
theorem cohen_coon_formula :
    (∀ k_p tau theta : ℚ, k_p ≠ 0 → 0 < tau → 0 < theta →
      cohen_coon k_p tau theta =
        Except.ok ⟨tau / (k_p * theta) * (4 / 3 + theta / (4 * tau)),
          tau / (k_p * theta) * (4 / 3 + theta / (4 * tau)) /
            (theta * ((32 * tau + 6 * theta) / (13 * tau + 8 * theta))),
          tau / (k_p * theta) * (4 / 3 + theta / (4 * tau)) *
            (theta * (4 * tau / (11 * tau + 2 * theta)))⟩) ∧
    cohen_coon 1.5 4 1 = Except.ok ⟨67 / 18, 5 / 3, 268 / 207⟩ ∧
    |(67 : ℚ) / 18 - 3.722| < 1 / 1000 ∧ |(5 : ℚ) / 3 - 1.667| < 1 / 1000 ∧
    |(268 : ℚ) / 207 - 1.295| < 1 / 1000 := by
  refine ⟨?_, by norm_num [cohen_coon], by norm_num [abs], by norm_num [abs],
    by norm_num [abs]⟩
  intro k_p tau theta hk ht hth
  rw [cohen_coon, if_neg hk, if_neg (not_le.mpr hth)]

/-- Witness for `cohen_coon_formula` at (Kp, τ, θ) = (1.5, 4, 1). -/
theorem cohen_coon_formula_witness :
    cohen_coon 1.5 4 1 =
      Except.ok ⟨4 / (1.5 * 1) * (4 / 3 + 1 / (4 * 4)),
        4 / (1.5 * 1) * (4 / 3 + 1 / (4 * 4)) /
          (1 * ((32 * 4 + 6 * 1) / (13 * 4 + 8 * 1))),
        4 / (1.5 * 1) * (4 / 3 + 1 / (4 * 4)) *
          (1 * (4 * 4 / (11 * 4 + 2 * 1)))⟩ :=
  cohen_coon_formula.1 1.5 4 1 (by norm_num) (by norm_num) (by norm_num)

/-- C4: for every Kp ≠ 0, τc > 0 (and any τ, θ ≥ 0), `imc` returns exactly
Kp = Kc, Ki = Kc/Ti (0 if Ti = 0), Kd = Kc·Td with
Kc = (1/Kp)·(τ+0.5θ)/(τc+0.5θ), Ti = τ+0.5θ, Td = τθ/(2τ+θ) (0 if 2τ+θ = 0);
in particular for (Kp = 1.5, τ = 4.0, θ = 1.0, τc = 1.5) it returns
(1.5, 1/3, 2/3). -/
theorem imc_formula :
    (∀ k_p tau theta tau_c : ℚ, k_p ≠ 0 → 0 ≤ theta → 0 < tau_c →
      imc k_p tau theta tau_c =
        Except.ok ⟨1 / k_p * (tau + 0.5 * theta) / (tau_c + 0.5 * theta),
          (if tau + 0.5 * theta = 0 then 0
           else 1 / k_p * (tau + 0.5 * theta) / (tau_c + 0.5 * theta) /
             (tau + 0.5 * theta)),
          1 / k_p * (tau + 0.5 * theta) / (tau_c + 0.5 * theta) *
            (if 2 * tau + theta = 0 then 0
             else tau * theta / (2 * tau + theta))⟩) ∧
    imc 1.5 4 1 1.5 = Except.ok ⟨1.5, 1 / 3, 2 / 3⟩ := by
  constructor
  · intro k_p tau theta tau_c hk hth hc
    rw [imc, if_neg hk, if_neg (not_le.mpr hc)]
    by_cases h1 : tau + 0.5 * theta = 0 <;> by_cases h2 : 2 * tau + theta = 0 <;>
      simp [h1, h2]
  · norm_num [imc]

/-- Witness for `imc_formula` at (Kp, τ, θ, τc) = (1.5, 4, 1, 1.5). -/
theorem imc_formula_witness :
    imc 1.5 4 1 1.5 =
      Except.ok ⟨1 / 1.5 * (4 + 0.5 * 1) / (1.5 + 0.5 * 1),
        (if (4 : ℚ) + 0.5 * 1 = 0 then 0
         else 1 / 1.5 * (4 + 0.5 * 1) / (1.5 + 0.5 * 1) / (4 + 0.5 * 1)),
        1 / 1.5 * (4 + 0.5 * 1) / (1.5 + 0.5 * 1) *
          (if 2 * (4 : ℚ) + 1 = 0 then 0 else 4 * 1 / (2 * 4 + 1))⟩ :=
  imc_formula.1 1.5 4 1 1.5 (by norm_num) (by norm_num) (by norm_num)

/-- C1 counterexample: `imc` does not fail for zero dead time.  At the valid
FOPDT parameters Kp = 1, τ = 1 with θ = 0 (and τc = 1) it returns the gain set
(1, 1, 0) instead of raising. -/
theorem imc_zero_theta_cex : imc 1 1 0 1 = Except.ok ⟨1, 1, 0⟩ := by
  norm_num [imc]

/-- C1 (amended): for every valid FOPDT parameter set (Kp ≠ 0, τ > 0) with
dead time θ = 0 and any τc > 0, the IMC tuning rule does not fail: it returns
the gain set Kp = τ/(Kp·τc), Ki = 1/(Kp·τc), Kd = 0, while Ziegler-Nichols
open-loop and Cohen-Coon do fail for θ = 0. -/
theorem imc_zero_theta_amended (k_p tau tau_c : ℚ)
    (hk : k_p ≠ 0) (ht : 0 < tau) (hc : 0 < tau_c) :
    imc k_p tau 0 tau_c = Except.ok ⟨tau / (k_p * tau_c), 1 / (k_p * tau_c), 0⟩ ∧
    (∃ e, ziegler_nichols_open_loop k_p tau 0 = Except.error e) ∧
    (∃ e, cohen_coon k_p tau 0 = Except.error e) := by
  refine ⟨?_, ?_, ?_⟩
  · rw [imc, if_neg hk, if_neg (not_le.mpr hc)]
    norm_num [ht.ne']
    constructor
    · field_simp
    · field_simp
      ring
  · exact ⟨"Ziegler-Nichols open-loop method is not applicable for systems with no dead time (theta <= 0).",
      by rw [ziegler_nichols_open_loop, if_neg hk, if_pos le_rfl]⟩
  · exact ⟨"Cohen-Coon method is not applicable for systems with no dead time (theta <= 0).",
      by rw [cohen_coon, if_neg hk, if_pos le_rfl]⟩

/-- Witness for `imc_zero_theta_amended` at (Kp, τ, τc) = (2, 3, 5). -/
theorem imc_zero_theta_amended_witness :
    imc 2 3 0 5 = Except.ok ⟨3 / (2 * 5), 1 / (2 * 5), 0⟩ ∧
    (∃ e, ziegler_nichols_open_loop 2 3 0 = Except.error e) ∧
    (∃ e, cohen_coon 2 3 0 = Except.error e) :=
  imc_zero_theta_amended 2 3 5 (by norm_num) (by norm_num) (by norm_num)

/-- C5: `ziegler_nichols_closed_loop` fails if and only if the gain margin Ku
of the plant is infinite or ≤ 0, or the phase-crossover frequency ωpc is ≤ 0;
otherwise it returns Kp = 0.6·Ku, Ki = Kp/(Tu/2), Kd = Kp·Tu/8 with
Tu = 2π/ωpc.  Moreover the plant 1/(s+1) has no phase crossover: its
frequency response never has a vanishing imaginary part at any ω > 0, which
is why ct.margin reports an infinite Ku for it and the rule fails. -/
theorem zn_closed_loop_spec :
    (∀ (m : TransFn → MarginResult) (tf_model : TransFn),
      (∃ e, ziegler_nichols_closed_loop m tf_model = Except.error e) ↔
        ((m tf_model).gm = MarginVal.infinite ∨
         (∃ k, (m tf_model).gm = MarginVal.finite k ∧ k ≤ 0) ∨
         (m tf_model).wg ≤ 0)) ∧
    (∀ (m : TransFn → MarginResult) (tf_model : TransFn) (k : ℚ),
      (m tf_model).gm = MarginVal.finite k → 0 < k → 0 < (m tf_model).wg →
      ziegler_nichols_closed_loop m tf_model =
        Except.ok ⟨0.6 * (k : ℝ),
          0.6 * (k : ℝ) / (2 * Real.pi / ((m tf_model).wg : ℝ) / 2),
          0.6 * (k : ℝ) * (2 * Real.pi / ((m tf_model).wg : ℝ) / 8)⟩) ∧
    (∀ ω : ℝ, 0 < ω → (firstOrderPlantResponse ω).im ≠ 0) := by
  refine ⟨?_, ?_, ?_⟩
  · intro m tf_model
    constructor
    · rintro ⟨e, he⟩
      rcases hgm : (m tf_model).gm with k | _
      · simp only [ziegler_nichols_closed_loop, hgm] at he
        by_cases h1 : k ≤ 0
        · exact Or.inr (Or.inl ⟨k, rfl, h1⟩)
        · rw [if_neg h1] at he
          by_cases h2 : (m tf_model).wg ≤ 0
          · exact Or.inr (Or.inr h2)
          · rw [if_neg h2] at he
            exact absurd he (by simp)
      · exact Or.inl rfl
    · intro h
      rcases h with hgm | ⟨k, hgm, hk⟩ | hw
      · exact ⟨"System does not have a finite ultimate gain (Ku). The Ziegler-Nichols closed-loop method is not applicable.",
          by simp only [ziegler_nichols_closed_loop, hgm]⟩
      · exact ⟨"System does not have a finite ultimate gain (Ku). The Ziegler-Nichols closed-loop method is not applicable.",
          by simp only [ziegler_nichols_closed_loop, hgm]; rw [if_pos hk]⟩
      · rcases hgm : (m tf_model).gm with k | _
        · by_cases h1 : k ≤ 0
          · exact ⟨"System does not have a finite ultimate gain (Ku). The Ziegler-Nichols closed-loop method is not applicable.",
              by simp only [ziegler_nichols_closed_loop, hgm]; rw [if_pos h1]⟩
          · exact ⟨"System does not have a finite ultimate period (Tu). The Ziegler-Nichols closed-loop method is not applicable.",
              by
                simp only [ziegler_nichols_closed_loop, hgm]
                rw [if_neg h1, if_pos hw]⟩
        · exact ⟨"System does not have a finite ultimate gain (Ku). The Ziegler-Nichols closed-loop method is not applicable.",
            by simp only [ziegler_nichols_closed_loop, hgm]⟩
  · intro m tf_model k hg hk hw
    simp only [ziegler_nichols_closed_loop, hg]
    rw [if_neg (not_le.mpr hk), if_neg (not_le.mpr hw)]
    norm_num
  · intro ω hω
    rw [firstOrderPlantResponse, one_div, Complex.inv_im]
    have hz : (Complex.I * (ω : ℂ) + 1).im = ω := by simp
    rw [hz]
    have hn : 0 < Complex.normSq (Complex.I * (ω : ℂ) + 1) := by
      apply Complex.normSq_pos.mpr
      intro h0
      have him := congrArg Complex.im h0
      rw [hz] at him
      simp at him
      exact hω.ne' him
    exact div_ne_zero (neg_ne_zero.mpr hω.ne') hn.ne'

/-- Witness for `zn_closed_loop_spec`: a margin oracle reporting Ku = 8 and
ωpc = 2 yields a gain set, and the 1/(s+1) response at ω = 1 has nonzero
imaginary part. -/
theorem zn_closed_loop_spec_witness :
    ziegler_nichols_closed_loop
        (fun _ => ⟨MarginVal.finite 8, MarginVal.infinite, 2, 0⟩) ⟨[1], [1, 1]⟩ =
      Except.ok ⟨0.6 * ((8 : ℚ) : ℝ),
        0.6 * ((8 : ℚ) : ℝ) / (2 * Real.pi / ((2 : ℚ) : ℝ) / 2),
        0.6 * ((8 : ℚ) : ℝ) * (2 * Real.pi / ((2 : ℚ) : ℝ) / 8)⟩ ∧
    (firstOrderPlantResponse 1).im ≠ 0 :=
  ⟨zn_closed_loop_spec.2.1 _ _ 8 rfl (by norm_num) (by norm_num),
   zn_closed_loop_spec.2.2 1 one_pos⟩

theorem getD_map_map (f g : ℚ → ℚ) (l : List ℚ) (i : ℕ) (hi : i < l.length) :
    ((l.map g).map f).getD i 0 = f (g (l.getD i 0)) := by
  rw [getD_map_of_lt _ _ _ (by simpa using hi), getD_map_of_lt _ _ _ hi]

/-- C6: `calculate_performance_indices` returns all-"not applicable" (without
raising) whenever the lengths differ or there are fewer than 2 samples;
otherwise it returns exactly the trapezoidal-rule integrals over the sample
grid of |e|, e², t·|e| and t·e² for e(t) = setpoint − output(t). -/
theorem perf_indices_spec :
    (∀ (time output : List ℚ) (setpoint : ℚ),
      time.length ≠ output.length ∨ time.length < 2 →
      calculate_performance_indices time output setpoint = ⟨none, none, none, none⟩) ∧
    (∀ (time output : List ℚ) (setpoint : ℚ),
      time.length = output.length → 2 ≤ time.length →
      calculate_performance_indices time output setpoint =
        ⟨some (∑ i ∈ Finset.range (time.length - 1),
            (time.getD (i + 1) 0 - time.getD i 0) *
              (|setpoint - output.getD i 0| + |setpoint - output.getD (i + 1) 0|) / 2),
         some (∑ i ∈ Finset.range (time.length - 1),
            (time.getD (i + 1) 0 - time.getD i 0) *
              ((setpoint - output.getD i 0) ^ 2 +
               (setpoint - output.getD (i + 1) 0) ^ 2) / 2),
         some (∑ i ∈ Finset.range (time.length - 1),
            (time.getD (i + 1) 0 - time.getD i 0) *
              (time.getD i 0 * |setpoint - output.getD i 0| +
               time.getD (i + 1) 0 * |setpoint - output.getD (i + 1) 0|) / 2),
         some (∑ i ∈ Finset.range (time.length - 1),
            (time.getD (i + 1) 0 - time.getD i 0) *
              (time.getD i 0 * (setpoint - output.getD i 0) ^ 2 +
               time.getD (i + 1) 0 * (setpoint - output.getD (i + 1) 0) ^ 2) / 2)⟩) := by
  constructor
  · intro time output setpoint h
    rw [calculate_performance_indices, if_pos h]
  · intro time output setpoint hlen h2
    have hcond : ¬(time.length ≠ output.length ∨ time.length < 2) := by
      push_neg
      exact ⟨hlen, h2⟩
    rw [calculate_performance_indices, if_neg hcond]
    simp only [PerfIndices.mk.injEq, Option.some.injEq]
    have habs : ∀ i < time.length,
        (((output.map (fun y => setpoint - y)).map (fun v => |v|)).getD i 0) =
          |setpoint - output.getD i 0| := by
      intro i hi
      exact getD_map_map _ _ _ _ (hlen ▸ hi)
    have hsq : ∀ i < time.length,
        (((output.map (fun y => setpoint - y)).map (fun v => v ^ 2)).getD i 0) =
          (setpoint - output.getD i 0) ^ 2 := by
      intro i hi
      exact getD_map_map _ _ _ _ (hlen ▸ hi)
    have hlabs : ((output.map (fun y => setpoint - y)).map (fun v => |v|)).length =
        time.length := by simp [hlen]
    have hlsq : ((output.map (fun y => setpoint - y)).map (fun v => v ^ 2)).length =
        time.length := by simp [hlen]
    refine ⟨?_, ?_, ?_, ?_⟩
    · rw [trapezoid_eq_sum _ _ hlabs]
      refine Finset.sum_congr rfl (fun i hi => ?_)
      have hi1 : i < time.length := by
        have := Finset.mem_range.mp hi
        omega
      have hi2 : i + 1 < time.length := by
        have := Finset.mem_range.mp hi
        omega
      rw [habs i hi1, habs (i + 1) hi2]
    · rw [trapezoid_eq_sum _ _ hlsq]
      refine Finset.sum_congr rfl (fun i hi => ?_)
      have hi1 : i < time.length := by
        have := Finset.mem_range.mp hi
        omega
      have hi2 : i + 1 < time.length := by
        have := Finset.mem_range.mp hi
        omega
      rw [hsq i hi1, hsq (i + 1) hi2]
    · rw [trapezoid_eq_sum _ _ (by simp [List.length_zipWith, hlen])]
      refine Finset.sum_congr rfl (fun i hi => ?_)
      have hi1 : i < time.length := by
        have := Finset.mem_range.mp hi
        omega
      have hi2 : i + 1 < time.length := by
        have := Finset.mem_range.mp hi
        omega
      rw [getD_zipWith_of_lt _ _ _ _ hi1 (hlabs ▸ hi1),
        getD_zipWith_of_lt _ _ _ _ hi2 (hlabs ▸ hi2),
        habs i hi1, habs (i + 1) hi2]
    · rw [trapezoid_eq_sum _ _ (by simp [List.length_zipWith, hlen])]
      refine Finset.sum_congr rfl (fun i hi => ?_)
      have hi1 : i < time.length := by
        have := Finset.mem_range.mp hi
        omega
      have hi2 : i + 1 < time.length := by
        have := Finset.mem_range.mp hi
        omega
      rw [getD_zipWith_of_lt _ _ _ _ hi1 (hlsq ▸ hi1),
        getD_zipWith_of_lt _ _ _ _ hi2 (hlsq ▸ hi2),
        hsq i hi1, hsq (i + 1) hi2]

/-- Witness for `perf_indices_spec`: one short input and one two-sample ramp
(time [0, 2], output [0, 1], setpoint 1). -/
theorem perf_indices_spec_witness :
    calculate_performance_indices [0, 1] [5] 1 = ⟨none, none, none, none⟩ ∧
    calculate_performance_indices [0, 2] [0, 1] 1 =
      ⟨some 1, some 1, some 0, some 0⟩ :=
  ⟨perf_indices_spec.1 [0, 1] [5] 1 (by norm_num),
   (perf_indices_spec.2 [0, 2] [0, 1] 1 (by norm_num) (by norm_num)).trans (by
     norm_num [Finset.sum_range_succ])⟩

/-- C7: for every plant (and any oracle behaviour), `analyze_step_response`
with all-zero PID gains returns the degenerate result: times [0, 1], outputs
[0, 0], and all step characteristics "not applicable" — it does not simulate
anything. -/
theorem step_response_zero_controller
    (sys_tf : TransFn) (polesOf : TransFn → Option (List CPole))
    (sr : TransFn → List ℚ → List ℚ) (si : TransFn → List ℚ → StepInfo) :
    analyze_step_response sys_tf ⟨0, 0, 0⟩ polesOf sr si =
      ⟨[0, 1], [0, 0], ⟨none, none, none, none, none⟩⟩ := by
  have hc : get_pid_controller ⟨0, 0, 0⟩ = ⟨[0], [1]⟩ := by
    norm_num [get_pid_controller, tfadd, polymul, polyadd]
  simp only [analyze_step_response, hc]
  rw [if_pos (by simp)]

/-- C8: with a nonzero controller, `analyze_step_response` samples the step
response at exactly 1500 linearly spaced points over [0, T_final], where
T_final = 10/r with r the smallest |real part| among closed-loop poles whose
real part is below -1e-6, and T_final = 50 when no such pole exists, the pole
set is empty, or pole extraction raises. -/
theorem step_response_horizon_spec :
    select_T_final none = 50 ∧
    (∀ ps : List CPole,
      ps.filter (fun p => p.re < -(1 / 1000000)) = [] →
      select_T_final (some ps) = 50) ∧
    (∀ (ps : List CPole) (r : ℚ),
      r ∈ (ps.filter (fun p => p.re < -(1 / 1000000))).map (fun p => |p.re|) →
      (∀ r' ∈ (ps.filter (fun p => p.re < -(1 / 1000000))).map (fun p => |p.re|),
        r ≤ r') →
      select_T_final (some ps) = 10 / r) ∧
    (∀ (sys_tf : TransFn) (pid_params : PIDGains ℚ)
      (polesOf : TransFn → Option (List CPole))
      (sr : TransFn → List ℚ → List ℚ) (si : TransFn → List ℚ → StepInfo),
      ¬(∀ c ∈ (get_pid_controller pid_params).num, c = 0) →
      (analyze_step_response sys_tf pid_params polesOf sr si).time =
        linspace 0 (select_T_final (polesOf
          (tffeedback1 (tfmul (get_pid_controller pid_params) sys_tf)))) 1500) ∧
    (∀ T : ℚ, (linspace 0 T 1500).length = 1500 ∧
      ∀ i, i < 1500 → (linspace 0 T 1500).getD i 0 = T * (i : ℚ) / 1499) := by
  refine ⟨rfl, ?_, ?_, ?_, ?_⟩
  · intro ps h
    rw [select_T_final]
    by_cases hlen : ps.length = 0
    · rw [if_pos hlen]
    · rw [if_neg hlen, h]
      simp [pysorted]
  · intro ps r hr hmin
    have hps : ps ≠ [] := by
      rcases List.mem_map.mp hr with ⟨p, hpf, rfl⟩
      exact List.ne_nil_of_mem (List.mem_of_mem_filter hpf)
    have hmne : (ps.filter (fun p => p.re < -(1 / 1000000))).map (fun p => |p.re|) ≠ [] :=
      List.ne_nil_of_mem hr
    cases hsort : pysorted ((ps.filter (fun p => p.re < -(1 / 1000000))).map (fun p => |p.re|)) with
    | nil =>
      exfalso
      have hl := length_pysorted ((ps.filter (fun p => p.re < -(1 / 1000000))).map (fun p => |p.re|))
      rw [hsort] at hl
      exact hmne (List.length_eq_zero.mp hl.symm)
    | cons r0 t =>
      obtain ⟨hr0mem, hr0min⟩ := pysorted_head_min _ r0 t hsort
      have hr0 : r0 = r := le_antisymm (hr0min r hr) (hmin r0 hr0mem)
      rw [select_T_final, if_neg (by simpa using hps), hsort, hr0]
  · intro sys_tf pid_params polesOf sr si h
    simp only [analyze_step_response]
    rw [if_neg h]
  · intro T
    constructor
    · simp only [linspace, List.length_map, List.length_range]
    · intro i hi
      simp only [linspace]
      rw [List.getD_eq_getElem _ _ (by rw [List.length_map, List.length_range]; exact hi),
        List.getElem_map, List.getElem_range]
      norm_num

/-- Witness for `step_response_horizon_spec`: a stable pole at -2 gives
T_final = 5, a right-half-plane pole gives the default 50, a P-controller
with Kp = 1 takes the simulation branch, and sample 3 of the grid over
[0, 5] sits at 5·3/1499. -/
theorem step_response_horizon_witness :
    select_T_final (some [⟨1, 0⟩]) = 50 ∧
    select_T_final (some [⟨-2, 0⟩]) = 10 / 2 ∧
    (analyze_step_response ⟨[1], [1, 1]⟩ ⟨1, 0, 0⟩ (fun _ => none) (fun _ _ => [])
        (fun _ _ => ⟨none, none, none, none, none⟩)).time =
      linspace 0 (select_T_final ((fun _ => none)
        (tffeedback1 (tfmul (get_pid_controller ⟨1, 0, 0⟩) ⟨[1], [1, 1]⟩)))) 1500 ∧
    (linspace 0 (5 : ℚ) 1500).getD 3 0 = 5 * ((3 : ℕ) : ℚ) / 1499 :=
  ⟨step_response_horizon_spec.2.1 [⟨1, 0⟩] (by norm_num [List.filter]),
   step_response_horizon_spec.2.2.1 [⟨-2, 0⟩] 2
     (by norm_num [List.filter])
     (by norm_num [List.filter]),
   step_response_horizon_spec.2.2.2.1 ⟨[1], [1, 1]⟩ ⟨1, 0, 0⟩ (fun _ => none)
     (fun _ _ => []) (fun _ _ => ⟨none, none, none, none, none⟩)
     (by norm_num [get_pid_controller, tfadd, polymul, polyadd]),
   (step_response_horizon_spec.2.2.2.2 5).2 3 (by norm_num)⟩

/-- C9: `analyze_frequency_domain` reports the sentinel ("unconditionally
stable") for GainMargin exactly when the gain margin of the open loop
(controller × plant) is infinite, and the finite numeric margin otherwise;
the same holds independently for PhaseMargin. -/
theorem freq_domain_sentinel :
    ∀ (sys_tf : TransFn) (pid_params : PIDGains ℚ) (m : TransFn → MarginResult),
      ((analyze_frequency_domain sys_tf pid_params m).GainMargin = MarginOut.stable ↔
        (m (tfmul (get_pid_controller pid_params) sys_tf)).gm = MarginVal.infinite) ∧
      (∀ x, (analyze_frequency_domain sys_tf pid_params m).GainMargin = MarginOut.val x ↔
        (m (tfmul (get_pid_controller pid_params) sys_tf)).gm = MarginVal.finite x) ∧
      ((analyze_frequency_domain sys_tf pid_params m).PhaseMargin = MarginOut.stable ↔
        (m (tfmul (get_pid_controller pid_params) sys_tf)).pm = MarginVal.infinite) ∧
      (∀ x, (analyze_frequency_domain sys_tf pid_params m).PhaseMargin = MarginOut.val x ↔
        (m (tfmul (get_pid_controller pid_params) sys_tf)).pm = MarginVal.finite x) := by
  intro sys_tf pid_params m
  simp only [analyze_frequency_domain]
  rcases hg : (m (tfmul (get_pid_controller pid_params) sys_tf)).gm with x | _ <;>
    rcases hp : (m (tfmul (get_pid_controller pid_params) sys_tf)).pm with y | _ <;>
      simp

/-- C10: whenever `ziegler_nichols_open_loop` or `ziegler_nichols_closed_loop`
returns a gain set, the gains satisfy Ki·Kd = Kp²/4 exactly (both rules set
Ti = 4·Td). -/
theorem zn_gain_product_invariant :
    (∀ (k_p tau theta : ℚ) (g : PIDGains ℚ),
      ziegler_nichols_open_loop k_p tau theta = Except.ok g →
      g.Ki * g.Kd = g.Kp ^ 2 / 4) ∧
    (∀ (m : TransFn → MarginResult) (tf_model : TransFn) (g : PIDGains ℝ),
      ziegler_nichols_closed_loop m tf_model = Except.ok g →
      g.Ki * g.Kd = g.Kp ^ 2 / 4) := by
  constructor
  · intro k_p tau theta g h
    rw [ziegler_nichols_open_loop] at h
    by_cases h1 : k_p = 0
    · rw [if_pos h1] at h
      exact absurd h (by simp)
    · rw [if_neg h1] at h
      by_cases h2 : theta ≤ 0
      · rw [if_pos h2] at h
        exact absurd h (by simp)
      · rw [if_neg h2] at h
        have hθ : theta ≠ 0 := fun h0 => h2 (le_of_eq h0)
        injection h with h'
        subst h'
        simp only []
        field_simp
        ring
  · intro m tf_model g h
    rcases hgm : (m tf_model).gm with k | _
    · simp only [ziegler_nichols_closed_loop, hgm] at h
      by_cases h1 : k ≤ 0
      · rw [if_pos h1] at h
        exact absurd h (by simp)
      · rw [if_neg h1] at h
        by_cases h2 : (m tf_model).wg ≤ 0
        · rw [if_pos h2] at h
          exact absurd h (by simp)
        · rw [if_neg h2] at h
          injection h with h'
          subst h'
          have hw : (0 : ℝ) < ((m tf_model).wg : ℝ) := by
            exact_mod_cast not_le.mp h2
          have htu : (2 * Real.pi / ((m tf_model).wg : ℝ)) ≠ 0 :=
            ne_of_gt (div_pos (by positivity) hw)
          simp only []
          field_simp
          ring
    · simp only [ziegler_nichols_closed_loop, hgm] at h
      exact absurd h (by simp)

/-- Witness for `zn_gain_product_invariant` with the open-loop gains from
(1.5, 4, 1) and the closed-loop gains from a margin oracle with Ku = 8,
ωpc = 2. -/
theorem zn_gain_product_invariant_witness :
    ((⟨3.2, 1.6, 1.6⟩ : PIDGains ℚ).Ki * (⟨3.2, 1.6, 1.6⟩ : PIDGains ℚ).Kd =
      (⟨3.2, 1.6, 1.6⟩ : PIDGains ℚ).Kp ^ 2 / 4) ∧
    ((⟨0.6 * ((8 : ℚ) : ℝ),
        0.6 * ((8 : ℚ) : ℝ) / (2 * Real.pi / ((2 : ℚ) : ℝ) / 2.0),
        0.6 * ((8 : ℚ) : ℝ) * (2 * Real.pi / ((2 : ℚ) : ℝ) / 8.0)⟩ : PIDGains ℝ).Ki *
      (⟨0.6 * ((8 : ℚ) : ℝ),
        0.6 * ((8 : ℚ) : ℝ) / (2 * Real.pi / ((2 : ℚ) : ℝ) / 2.0),
        0.6 * ((8 : ℚ) : ℝ) * (2 * Real.pi / ((2 : ℚ) : ℝ) / 8.0)⟩ : PIDGains ℝ).Kd =
      (⟨0.6 * ((8 : ℚ) : ℝ),
        0.6 * ((8 : ℚ) : ℝ) / (2 * Real.pi / ((2 : ℚ) : ℝ) / 2.0),
        0.6 * ((8 : ℚ) : ℝ) * (2 * Real.pi / ((2 : ℚ) : ℝ) / 8.0)⟩ : PIDGains ℝ).Kp ^ 2 / 4) :=
  ⟨zn_gain_product_invariant.1 1.5 4 1 ⟨3.2, 1.6, 1.6⟩
     (by norm_num [ziegler_nichols_open_loop]),
   zn_gain_product_invariant.2 (fun _ => ⟨MarginVal.finite 8, MarginVal.infinite, 2, 0⟩)
     ⟨[1], [1]⟩ _ (by norm_num [ziegler_nichols_closed_loop])⟩
